import Mathlib

/-!
A shallow embedding of `crates/egui/src/widgets/text_edit/text_buffer.rs`.

Modelling conventions:
* Rust `&str` / `String` values are modelled as `List Char` (their sequence of
  Unicode scalar values); raw byte buffers are `List Nat`, one element per byte.
* UTF-8 encoding is explicit (`utf8EncodeChar`, `utf8Encode`); `std::str::from_utf8`
  is `utf8Decode`, strict exactly as in Rust: it rejects truncated sequences,
  stray continuation bytes, overlong forms, surrogates and values above U+10FFFF.
* A Rust panic (failed `assert!`, `unwrap`, an out-of-bounds array write, or a
  non-character-boundary `insert_str`/`drain`) is modelled by an `Option`-valued
  result, `none` being the panic.
* The external collaborators that live outside `src/` (`byte_index_from_char_index`,
  `find_line_start` from `text_cursor_state`, `TAB_SIZE` from `epaint`) are modelled
  from the spec; their doc comments say so explicitly.
-/

/-- UTF-8 encoding of a single Unicode scalar value (one Rust `char`), as byte values. -/
def utf8EncodeChar (c : Char) : List Nat :=
  let n := c.toNat
  if n < 128 then [n]
  else if n < 2048 then [192 + n / 64, 128 + n % 64]
  else if n < 65536 then [224 + n / 4096, 128 + n / 64 % 64, 128 + n % 64]
  else [240 + n / 262144, 128 + n / 4096 % 64, 128 + n / 64 % 64, 128 + n % 64]

/-- UTF-8 encoding of a string (Rust `str::as_bytes`). -/
def utf8Encode (s : List Char) : List Nat :=
  (s.map utf8EncodeChar).flatten

/-- Fuel-indexed strict UTF-8 decoder; `utf8Decode` instantiates the fuel with the
length of the input, which always suffices since every step consumes at least one
byte. Mirrors the grammar accepted by Rust `std::str::from_utf8`. -/
def utf8DecodeF : Nat → List Nat → Option (List Char)
  | _, [] => some []
  | 0, _ :: _ => none
  | f + 1, b0 :: rest =>
    if b0 < 128 then
      (utf8DecodeF f rest).map (fun cs => Char.ofNat b0 :: cs)
    else if b0 < 224 then
      match rest with
      | b1 :: rest2 =>
        if 194 ≤ b0 ∧ 128 ≤ b1 ∧ b1 < 192 then
          (utf8DecodeF f rest2).map (fun cs => Char.ofNat (b0 % 32 * 64 + b1 % 64) :: cs)
        else none
      | [] => none
    else if b0 < 240 then
      match rest with
      | b1 :: b2 :: rest3 =>
        if 128 ≤ b1 ∧ b1 < 192 ∧ 128 ≤ b2 ∧ b2 < 192 ∧
            2048 ≤ b0 % 16 * 4096 + b1 % 64 * 64 + b2 % 64 ∧
            (b0 % 16 * 4096 + b1 % 64 * 64 + b2 % 64 < 55296 ∨
              57343 < b0 % 16 * 4096 + b1 % 64 * 64 + b2 % 64) then
          (utf8DecodeF f rest3).map
            (fun cs => Char.ofNat (b0 % 16 * 4096 + b1 % 64 * 64 + b2 % 64) :: cs)
        else none
      | _ => none
    else if b0 < 245 then
      match rest with
      | b1 :: b2 :: b3 :: rest4 =>
        if 128 ≤ b1 ∧ b1 < 192 ∧ 128 ≤ b2 ∧ b2 < 192 ∧ 128 ≤ b3 ∧ b3 < 192 ∧
            65536 ≤ b0 % 8 * 262144 + b1 % 64 * 4096 + b2 % 64 * 64 + b3 % 64 ∧
            b0 % 8 * 262144 + b1 % 64 * 4096 + b2 % 64 * 64 + b3 % 64 < 1114112 then
          (utf8DecodeF f rest4).map
            (fun cs => Char.ofNat (b0 % 8 * 262144 + b1 % 64 * 4096 + b2 % 64 * 64 + b3 % 64) :: cs)
        else none
      | _ => none
    else none

/-- Rust `std::str::from_utf8`: `some` is `Ok`, `none` is `Err(Utf8Error)`. -/
def utf8Decode (l : List Nat) : Option (List Char) :=
  utf8DecodeF l.length l

/-- `String64`: the fixed 64-byte inline buffer (`inner: [u8; 64]`). -/
structure String64 where
  inner : List Nat
deriving DecidableEq, Repr

/-- `String64::new` / `Default::default`: all-zero buffer. -/
def String64.new : String64 :=
  ⟨List.replicate 64 0⟩

/-- The `for byte in self.inner { match byte { 0 => break, _ => output += 1 } }` loop
of `String64::len`: the length of the leading run of nonzero bytes. -/
def leadingNonzeroCount : List Nat → Nat
  | [] => 0
  | x :: xs => if x = 0 then 0 else leadingNonzeroCount xs + 1

/-- `String64::len`. -/
def String64.len (b : String64) : Nat :=
  leadingNonzeroCount b.inner

/-- `String64::as_str`: `from_utf8(&self.inner[0..self.len()]).unwrap()`;
`none` models the `unwrap` panic on invalid UTF-8. -/
def String64.asStr (b : String64) : Option (List Char) :=
  utf8Decode (b.inner.take b.len)

/-- The back-off computation of `From<&str> for String64` (the loop that decrements
the local `min` while `from_utf8(&inner[0..min])` fails). The source computes this
value and then discards it: the loop never writes to `inner`, so the constructed
`String64` stores the copied prefix unchanged. Kept here to mirror the source. -/
def fromBackoff (inner : List Nat) : Nat → Nat
  | 0 => 0
  | m + 1 => if (utf8Decode (inner.take (m + 1))).isSome then m + 1 else fromBackoff inner m

/-- `From<&str> for String64`: copies `min(s.len(), 64)` bytes of the input into a
zeroed 64-byte array. The validation loop of the source only shrinks its local
`min` (see `fromBackoff`) and never clears the copied bytes, so the stored bytes
are exactly the copied prefix plus the remaining zero padding. (`from` is a Lean
keyword, hence the name `fromStr`.) -/
def String64.fromStr (s : List Char) : String64 :=
  let bytes := utf8Encode s
  let m := Nat.min bytes.length 64
  ⟨bytes.take m ++ List.replicate (64 - m) 0⟩

/-- `TryFrom<&[u8]> for String64`: copies `min(s.len(), 64)` bytes into a zeroed
array and validates the FULL 64-byte array as UTF-8 (the zero padding decodes as
NUL characters); `none` is `Err(Utf8Error)`. -/
def String64.tryFrom (s : List Nat) : Option String64 :=
  let m := Nat.min s.length 64
  let inner := s.take m ++ List.replicate (64 - m) 0
  if (utf8Decode inner).isSome then some ⟨inner⟩ else none

/-- `String64::push`. The first loop computes `end_index` as (index of the LAST zero
byte) + 1; the second loop writes `self.inner[index + end_index] = byte` for each
byte of `s`. A write at an index ≥ 64 is an out-of-bounds panic, modelled as `none`. -/
def String64.push (b : String64) (s : List Char) : Option String64 :=
  let sb := utf8Encode s
  if b.len + sb.length > 64 then some b
  else
    let endIndex := b.inner.enum.foldl (fun acc p => if p.2 = 0 then p.1 + 1 else acc) 0
    if endIndex + sb.length ≤ b.inner.length then
      some ⟨sb.enum.foldl (fun acc p => acc.set (endIndex + p.1) p.2) b.inner⟩
    else none

/-- `bytes_to_str`: skips the leading run of zero bytes, then decodes the following
run of nonzero bytes; mirrors the source including its two early `return Ok("")`. -/
def leadingZeroCount : List Nat → Nat
  | [] => 0
  | x :: xs => if x = 0 then leadingZeroCount xs + 1 else 0

/-- `bytes_to_str` itself (used by the `Display` impl on the full 64-byte array). -/
def bytesToStr (bytes : List Nat) : Option (List Char) :=
  let start := leadingZeroCount bytes
  if bytes.isEmpty then some []
  else if bytes.length - 1 ≤ start then some []
  else
    let run := leadingNonzeroCount (bytes.drop start)
    utf8Decode ((bytes.drop start).take run)

/-- Modelled from the spec: `byte_index_from_char_index(text, char_index) -> byte_index`
(external collaborator in `text_cursor_state`, not under `src/`): the byte offset of
the character at `char_index`, i.e. the encoded length of the first `char_index`
characters, clamped to the total byte length when the index is at or past the end
(spec section 4.1: insertion lands "at the end if `char_index >= char_count`"). -/
def byteIndexFromCharIndex (s : List Char) (i : Nat) : Nat :=
  (utf8Encode (s.take i)).length

/-- Modelled from the spec: `line_start(text, char_index) -> char_index` (external
collaborator `find_line_start`, not under `src/`): the character index just after
the last newline strictly before `char_index`, or 0 when there is none. -/
def findLineStart (s : List Char) (i : Nat) : Nat :=
  i - ((s.take i).reverse.takeWhile (fun c => c != Char.ofNat 10)).length

/-- Modelled from the spec: `TAB_SIZE` (= 4), imported from `epaint` (not under `src/`). -/
def TAB_SIZE : Nat := 4

/-- `usize::MAX` on a 64-bit target, used by the `insert_text_at` branch. -/
def USIZE_MAX : Nat := 2 ^ 64 - 1

/-- The character position of byte offset `n` in a string: `some` exactly when `n`
is on a character boundary (and at most the total byte length), which is the
condition under which Rust `String::insert_str` / `String::drain` do not panic. -/
def charPosOfBytePos : List Char → Nat → Option Nat
  | _, 0 => some 0
  | [], _ + 1 => none
  | c :: cs, n + 1 =>
    if (utf8EncodeChar c).length ≤ n + 1 then
      (charPosOfBytePos cs (n + 1 - (utf8EncodeChar c).length)).map (fun k => k + 1)
    else none

/-- Rust `String::insert_str(a, t)`: panics (`none`) unless byte offset `a` is a
character boundary; otherwise splices `t` in at the corresponding character position. -/
def insertStrAt (temp : List Char) (a : Nat) (t : List Char) : Option (List Char) :=
  (charPosOfBytePos temp a).map (fun ca => temp.take ca ++ t ++ temp.drop ca)

/-- Rust `String::drain(a..b)`: panics (`none`) unless `a ≤ b` and both byte offsets
are character boundaries; otherwise removes the corresponding character range. -/
def drainBytes (temp : List Char) (a b : Nat) : Option (List Char) :=
  match charPosOfBytePos temp a, charPosOfBytePos temp b with
  | some ca, some cb => if a ≤ b then some (temp.take ca ++ temp.drop cb) else none
  | _, _ => none

/-- `<String as TextBuffer>::is_mutable`. -/
def stringIsMutable : Bool := true

/-- `<String as TextBuffer>::insert_text`: `insert_str` at the byte offset returned
by `byte_index_from_char_index`, then returns `text.chars().count()`. -/
def stringInsertText (s t : List Char) (i : Nat) : Option (List Char × Nat) :=
  (insertStrAt s (byteIndexFromCharIndex s i) t).map (fun s2 => (s2, t.length))

/-- `<String as TextBuffer>::delete_char_range`: `assert!(start <= end)` (`none` =
assertion panic), then `drain` of the corresponding byte range. -/
def stringDeleteCharRange (s : List Char) (a b : Nat) : Option (List Char) :=
  if a ≤ b then drainBytes s (byteIndexFromCharIndex s a) (byteIndexFromCharIndex s b)
  else none

/-- Default `TextBuffer::insert_text_at`, specialised to the growable `String`
variant. `saturating_sub` is `Nat` subtraction; `char_indices().nth(cutoff)`
returning `None` keeps the whole text and otherwise truncates to the first
`cutoff` characters, which is `t.take cutoff` in both cases. On success the cursor
advances by the value returned by `insert_text`. -/
def insertTextAt (s : List Char) (cursor : Nat) (t : List Char) (charLimit : Nat) :
    Option (List Char × Nat) :=
  if charLimit < USIZE_MAX then
    let cutoff := charLimit - s.length
    (stringInsertText s (t.take cutoff) cursor).map (fun p => (p.1, cursor + p.2))
  else
    (stringInsertText s t cursor).map (fun p => (p.1, cursor + p.2))

/-- Default `TextBuffer::decrease_indentation`, specialised to the growable `String`
variant. `CCursor` equality compares character indices and `-=` on a cursor
saturates at 0 (spec section 3), which is `Nat` subtraction. -/
def decreaseIndentation (s : List Char) (cursor : Nat) : Option (List Char × Nat) :=
  let ls := findLineStart s cursor
  let removeLen : Option Nat :=
    if s[ls]? = some (Char.ofNat 9) then some 1
    else if ((s.drop ls).take TAB_SIZE).all (fun c => c == ' ') then some TAB_SIZE
    else none
  match removeLen with
  | some len =>
    (stringDeleteCharRange s ls (ls + len)).map
      (fun s2 => (s2, if cursor ≠ ls then cursor - len else cursor))
  | none => some (s, cursor)

/-- `<&str as TextBuffer>::is_mutable`: the immutable view. -/
def strIsMutable : Bool := false

/-- `<&str as TextBuffer>::insert_text`: does nothing and returns 0. -/
def strInsertText (s : List Char) (_text : List Char) (_chIdx : Nat) : List Char × Nat :=
  (s, 0)

/-- `<&str as TextBuffer>::delete_char_range`: does nothing. -/
def strDeleteCharRange (s : List Char) (_a _b : Nat) : List Char :=
  s

/-- `<String64 as TextBuffer>::is_mutable`. -/
def String64.isMutable (_b : String64) : Bool := true

/-- `<String64 as TextBuffer>::insert_text`: the byte index is computed from
`as_str()` (whose `unwrap` may panic), the splice happens on `self.to_string()`
(the `Display` rendering, i.e. `bytes_to_str` of the full array, whose `expect`
may panic), the result is re-encoded via `String64::from`, and the returned count
is `text.chars().count()` unconditionally. -/
def String64.insertText (b : String64) (t : List Char) (i : Nat) : Option (String64 × Nat) :=
  match b.asStr with
  | none => none
  | some s =>
    let byteIdx := byteIndexFromCharIndex s i
    match bytesToStr b.inner with
    | none => none
    | some temp =>
      (insertStrAt temp byteIdx t).map (fun temp2 => (String64.fromStr temp2, t.length))

/-- `<String64 as TextBuffer>::delete_char_range`: `assert!(start <= end)`, byte
indices from `as_str()`, `drain` on `self.to_string()`, re-encode via `from`. -/
def String64.deleteCharRange (b : String64) (a c : Nat) : Option String64 :=
  if a ≤ c then
    match b.asStr with
    | none => none
    | some s =>
      match bytesToStr b.inner with
      | none => none
      | some temp =>
        (drainBytes temp (byteIndexFromCharIndex s a) (byteIndexFromCharIndex s c)).map
          String64.fromStr
  else none

/-- `<String64 as TextBuffer>::clear`: `*self = String64::new()`. -/
def String64.clear (_b : String64) : String64 :=
  String64.new

/-- `<String64 as TextBuffer>::replace_with`: `*self = String64::from(text)`. -/
def String64.replaceWith (_b : String64) (t : List Char) : String64 :=
  String64.fromStr t

/-- The trailing run of zero bytes removed (used to state the `String64` invariant). -/
def stripTrailingZeros (l : List Nat) : List Nat :=
  (l.reverse.dropWhile (fun x => x == 0)).reverse

/-- The `String64` data-model invariant stated in the spec (section 3): the 64 bytes
form a valid UTF-8 string once the trailing run of zero bytes is stripped, and no
zero byte occurs before the end of the encoded content. -/
def String64.Wf (b : String64) : Prop :=
  b.inner.length = 64 ∧
  (utf8Decode (stripTrailingZeros b.inner)).isSome = true ∧
  ∀ x ∈ stripTrailingZeros b.inner, x ≠ 0

instance (b : String64) : Decidable b.Wf :=
  inferInstanceAs (Decidable (b.inner.length = 64 ∧
    (utf8Decode (stripTrailingZeros b.inner)).isSome = true ∧
    ∀ x ∈ stripTrailingZeros b.inner, x ≠ 0))

theorem char_toNat_cases (c : Char) : c.toNat < 55296 ∨ (57343 < c.toNat ∧ c.toNat < 1114112) := by
  have h := c.valid
  unfold UInt32.isValidChar Nat.isValidChar at h
  simp only [Char.toNat]
  omega

theorem utf8DecodeF_encodeChar_cons (c : Char) (f : Nat) (l : List Nat) :
    utf8DecodeF (f + 1) (utf8EncodeChar c ++ l) = (utf8DecodeF f l).map (fun cs => c :: cs) := by
  have hv := char_toNat_cases c
  simp only [utf8EncodeChar]
  by_cases h1 : c.toNat < 128
  · simp only [if_pos h1, List.cons_append, List.nil_append, utf8DecodeF, h1, if_true]
    simp only [Char.ofNat_toNat]
  by_cases h2 : c.toNat < 2048
  · simp only [if_neg h1, if_pos h2, List.cons_append, List.nil_append, utf8DecodeF]
    rw [if_neg (by omega), if_pos (by omega), if_pos (by omega)]
    simp only [show (192 + c.toNat / 64) % 32 * 64 + (128 + c.toNat % 64) % 64 = c.toNat from by
      omega]
    simp only [Char.ofNat_toNat]
  by_cases h3 : c.toNat < 65536
  · simp only [if_neg h1, if_neg h2, if_pos h3, List.cons_append, List.nil_append, utf8DecodeF]
    rw [if_neg (by omega), if_neg (by omega), if_pos (by omega), if_pos (by omega)]
    simp only [show (224 + c.toNat / 4096) % 16 * 4096 + (128 + c.toNat / 64 % 64) % 64 * 64 +
        (128 + c.toNat % 64) % 64 = c.toNat from by omega]
    simp only [Char.ofNat_toNat]
  · simp only [if_neg h1, if_neg h2, if_neg h3, List.cons_append, List.nil_append, utf8DecodeF]
    rw [if_neg (by omega), if_neg (by omega), if_neg (by omega), if_pos (by omega),
      if_pos (by omega)]
    simp only [show (240 + c.toNat / 262144) % 8 * 262144 + (128 + c.toNat / 4096 % 64) % 64 * 4096 +
        (128 + c.toNat / 64 % 64) % 64 * 64 + (128 + c.toNat % 64) % 64 = c.toNat from by omega]
    simp only [Char.ofNat_toNat]

theorem utf8Encode_nil : utf8Encode [] = [] := rfl

theorem utf8Encode_cons (c : Char) (s : List Char) :
    utf8Encode (c :: s) = utf8EncodeChar c ++ utf8Encode s := by
  simp [utf8Encode]

theorem utf8Encode_append (s t : List Char) :
    utf8Encode (s ++ t) = utf8Encode s ++ utf8Encode t := by
  simp [utf8Encode]

theorem utf8DecodeF_nil (f : Nat) : utf8DecodeF f [] = some [] := by
  cases f <;> rfl

theorem utf8EncodeChar_length_pos (c : Char) : 1 ≤ (utf8EncodeChar c).length := by
  simp only [utf8EncodeChar]
  split
  · simp
  · split
    · simp
    · split <;> simp

theorem utf8DecodeF_encode (s : List Char) : ∀ f : Nat, s.length ≤ f →
    utf8DecodeF f (utf8Encode s) = some s := by
  induction s with
  | nil => intro f _; rw [utf8Encode_nil, utf8DecodeF_nil]
  | cons c s ih =>
    intro f hf
    obtain ⟨g, rfl⟩ : ∃ g, f = g + 1 := by
      cases f with
      | zero => simp at hf
      | succ g => exact ⟨g, rfl⟩
    rw [utf8Encode_cons, utf8DecodeF_encodeChar_cons, ih g (by simpa using hf)]
    rfl

theorem length_le_utf8Encode_length (s : List Char) : s.length ≤ (utf8Encode s).length := by
  induction s with
  | nil => simp [utf8Encode_nil]
  | cons c s ih =>
    rw [utf8Encode_cons]
    simp only [List.length_append, List.length_cons]
    have := utf8EncodeChar_length_pos c
    omega

theorem utf8Decode_encode (s : List Char) : utf8Decode (utf8Encode s) = some s := by
  rw [utf8Decode, utf8DecodeF_encode s _ (length_le_utf8Encode_length s)]

theorem char_ne_nul_toNat (c : Char) (h : c ≠ Char.ofNat 0) : c.toNat ≠ 0 := by
  intro h0
  apply h
  rw [← Char.ofNat_toNat c, h0]

theorem utf8EncodeChar_ne_zero (c : Char) (hc : c.toNat ≠ 0) :
    ∀ b ∈ utf8EncodeChar c, b ≠ 0 := by
  intro b hb
  simp only [utf8EncodeChar] at hb
  split at hb
  · simp at hb; omega
  · split at hb
    · simp at hb; rcases hb with h | h <;> omega
    · split at hb
      · simp at hb; rcases hb with h | h | h <;> omega
      · simp at hb; rcases hb with h | h | h | h <;> omega

theorem utf8Encode_ne_zero (s : List Char) (h : ∀ c ∈ s, c ≠ Char.ofNat 0) :
    ∀ b ∈ utf8Encode s, b ≠ 0 := by
  induction s with
  | nil => simp [utf8Encode_nil]
  | cons c s ih =>
    intro b hb
    rw [utf8Encode_cons] at hb
    rcases List.mem_append.mp hb with h1 | h2
    · exact utf8EncodeChar_ne_zero c (char_ne_nul_toNat c (h c (by simp))) b h1
    · exact ih (fun d hd => h d (by simp [hd])) b h2

theorem leadingNonzeroCount_append (xs ys : List Nat) (h : ∀ x ∈ xs, x ≠ 0) :
    leadingNonzeroCount (xs ++ ys) = xs.length + leadingNonzeroCount ys := by
  induction xs with
  | nil => simp
  | cons x xs ih =>
    simp only [List.cons_append, leadingNonzeroCount]
    rw [if_neg (h x (by simp))]
    simp only [List.append_eq]
    rw [ih (fun y hy => h y (by simp [hy]))]
    simp only [List.length_cons]
    omega

theorem leadingNonzeroCount_replicate_zero (k : Nat) :
    leadingNonzeroCount (List.replicate k 0) = 0 := by
  cases k <;> simp [leadingNonzeroCount]

/-- C1 (corrected, amended form): for every valid UTF-8 string `s` of at most 64
bytes that contains no NUL character, `String64::from(s).as_str()` succeeds and
returns exactly `s`. (The NUL restriction is forced by `c1_counterexample`: a NUL
byte inside content is misread as the end-of-content sentinel by `len`.) -/
theorem c1_string64_from_roundtrip_no_nul (s : List Char)
    (hlen : (utf8Encode s).length ≤ 64) (hnul : ∀ c ∈ s, c ≠ Char.ofNat 0) :
    (String64.fromStr s).asStr = some s := by
  have hm : Nat.min (utf8Encode s).length 64 = (utf8Encode s).length := Nat.min_eq_left hlen
  have hinner : (String64.fromStr s).inner =
      utf8Encode s ++ List.replicate (64 - (utf8Encode s).length) 0 := by
    simp [String64.fromStr, hm, List.take_of_length_le (le_refl _)]
  have hlen64 : (String64.fromStr s).len = (utf8Encode s).length := by
    rw [String64.len, hinner,
      leadingNonzeroCount_append _ _ (utf8Encode_ne_zero s hnul),
      leadingNonzeroCount_replicate_zero]
    omega
  rw [String64.asStr, hlen64, hinner, List.take_left, utf8Decode_encode]

theorem take_min_length (s : List Char) (i : Nat) : s.take (min i s.length) = s.take i := by
  rcases Nat.le_total i s.length with h | h
  · rw [show min i s.length = i from by omega]
  · rw [show min i s.length = s.length from by omega, List.take_length,
      List.take_of_length_le h]

theorem drop_min_length (s : List Char) (i : Nat) : s.drop (min i s.length) = s.drop i := by
  rcases Nat.le_total i s.length with h | h
  · rw [show min i s.length = i from by omega]
  · rw [show min i s.length = s.length from by omega, List.drop_length,
      List.drop_eq_nil_of_le h]

theorem charPosOfBytePos_byteIndex (s : List Char) : ∀ i : Nat,
    charPosOfBytePos s (byteIndexFromCharIndex s i) = some (min i s.length) := by
  induction s with
  | nil =>
    intro i
    simp [byteIndexFromCharIndex, utf8Encode_nil, charPosOfBytePos]
  | cons c cs ih =>
    intro i
    cases i with
    | zero => simp [byteIndexFromCharIndex, utf8Encode_nil, charPosOfBytePos]
    | succ i =>
      have hk := utf8EncodeChar_length_pos c
      have hb : byteIndexFromCharIndex (c :: cs) (i + 1) =
          (utf8EncodeChar c).length + byteIndexFromCharIndex cs i := by
        simp [byteIndexFromCharIndex, List.take_succ_cons, utf8Encode_cons]
      rw [hb, show (utf8EncodeChar c).length + byteIndexFromCharIndex cs i =
        ((utf8EncodeChar c).length + byteIndexFromCharIndex cs i - 1) + 1 from by omega]
      simp only [charPosOfBytePos]
      rw [if_pos (by omega), show (utf8EncodeChar c).length + byteIndexFromCharIndex cs i - 1
        + 1 - (utf8EncodeChar c).length = byteIndexFromCharIndex cs i from by omega, ih i]
      simp only [Option.map_some', List.length_cons, Nat.succ_min_succ]

theorem stringInsertText_eq (s t : List Char) (i : Nat) :
    stringInsertText s t i = some (s.take i ++ t ++ s.drop i, t.length) := by
  rw [stringInsertText, insertStrAt, charPosOfBytePos_byteIndex]
  simp only [Option.map_some', take_min_length, drop_min_length]

theorem byteIndex_mono (s : List Char) (i j : Nat) (h : i ≤ j) :
    byteIndexFromCharIndex s i ≤ byteIndexFromCharIndex s j := by
  have h1 : s.take j = s.take i ++ (s.take j).drop i := by
    conv_lhs => rw [← List.take_append_drop i (s.take j)]
    rw [List.take_take, Nat.min_eq_left h]
  rw [byteIndexFromCharIndex, byteIndexFromCharIndex, h1, utf8Encode_append,
    List.length_append]
  omega

theorem stringDeleteCharRange_eq (s : List Char) (a b : Nat) (hab : a ≤ b) :
    stringDeleteCharRange s a b = some (s.take a ++ s.drop b) := by
  rw [stringDeleteCharRange, if_pos hab, drainBytes]
  simp only [charPosOfBytePos_byteIndex]
  rw [if_pos (byteIndex_mono s a b hab)]
  simp only [take_min_length, drop_min_length]

theorem stripTrailingZeros_decomp (l : List Nat) :
    l = stripTrailingZeros l ++ List.replicate (l.length - (stripTrailingZeros l).length) 0 := by
  have h2 : l = stripTrailingZeros l ++ (List.takeWhile (fun x => x == 0) l.reverse).reverse := by
    rw [stripTrailingZeros]
    conv_lhs => rw [← List.reverse_reverse l]
    rw [← List.reverse_append, List.takeWhile_append_dropWhile]
  have hlen : (stripTrailingZeros l).length +
      (List.takeWhile (fun x => x == 0) l.reverse).length = l.length := by
    have h4 := congrArg List.length h2
    simp only [List.length_append, List.length_reverse] at h4
    omega
  have h1 : (List.takeWhile (fun x => x == 0) l.reverse).reverse =
      List.replicate (l.length - (stripTrailingZeros l).length) 0 := by
    have hz : ∀ b ∈ List.takeWhile (fun x => x == 0) l.reverse, b = 0 := by
      intro b hb
      have := List.mem_takeWhile_imp hb
      simpa using this
    rw [List.eq_replicate_of_mem hz, List.reverse_replicate,
      show (List.takeWhile (fun x => x == 0) l.reverse).length =
        l.length - (stripTrailingZeros l).length from by omega]
  rw [← h1]
  exact h2

theorem leadingNonzeroCount_of_all_zero (p : List Nat) (h : ∀ x ∈ p, x = 0) :
    leadingNonzeroCount p = 0 := by
  cases p with
  | nil => rfl
  | cons x xs =>
    rw [leadingNonzeroCount, if_pos (h x (by simp))]

/-- `bytes_to_str` on a buffer that is nonempty content followed by padding, where the
content has no zero byte and the padding is all zeros, decodes exactly the content. -/
theorem bytesToStr_content (content pad : List Nat) (hc : content ≠ [])
    (hnz : ∀ x ∈ content, x ≠ 0) (hpad : ∀ x ∈ pad, x = 0)
    (hbig : 2 ≤ content.length + pad.length) :
    bytesToStr (content ++ pad) = utf8Decode content := by
  rcases content with _ | ⟨c0, cs⟩
  · exact absurd rfl hc
  have hc0 : c0 ≠ 0 := hnz c0 (by simp)
  have hstart : leadingZeroCount (c0 :: (cs ++ pad)) = 0 := by
    rw [leadingZeroCount, if_neg hc0]
  have hrun : leadingNonzeroCount (c0 :: (cs ++ pad)) = (c0 :: cs).length := by
    rw [← List.cons_append, leadingNonzeroCount_append _ _ hnz,
      leadingNonzeroCount_of_all_zero pad hpad]
    omega
  rw [bytesToStr]
  simp only [List.cons_append, hstart, List.drop_zero, hrun]
  rw [if_neg (show ¬(c0 :: (cs ++ pad)).isEmpty = true from by simp)]
  rw [if_neg (show ¬(c0 :: (cs ++ pad)).length - 1 ≤ 0 from by
    simp only [List.length_cons, List.length_append] at hbig ⊢; omega)]
  rw [← List.cons_append, List.take_left]

/-- The `String64` state as content plus zero padding, recovered from the invariant. -/
theorem string64_wf_len (b : String64) (h : b.Wf) :
    b.len = (stripTrailingZeros b.inner).length := by
  obtain ⟨hlen, _, hnz⟩ := h
  rw [String64.len]
  conv_lhs => rw [stripTrailingZeros_decomp b.inner]
  rw [leadingNonzeroCount_append _ _ hnz, leadingNonzeroCount_replicate_zero]
  omega

theorem take_stripTrailingZeros (l : List Nat) :
    l.take (stripTrailingZeros l).length = stripTrailingZeros l := by
  generalize hs : stripTrailingZeros l = t
  have hd := stripTrailingZeros_decomp l
  rw [hs] at hd
  calc l.take t.length = (t ++ List.replicate (l.length - t.length) 0).take t.length := by
        rw [← hd]
    _ = t := List.take_left t _

theorem string64_wf_asStr (b : String64) (h : b.Wf) :
    b.asStr = utf8Decode (stripTrailingZeros b.inner) := by
  rw [String64.asStr, string64_wf_len b h, take_stripTrailingZeros]

/-- Under the invariant, the `Display` decoding (`bytes_to_str` on the full array)
agrees with `as_str` (decoding the first `len()` bytes). -/
theorem string64_wf_display (b : String64) (h : b.Wf) : bytesToStr b.inner = b.asStr := by
  rw [string64_wf_asStr b h]
  rcases hcontent : stripTrailingZeros b.inner with _ | ⟨c0, cs⟩
  · have hd := stripTrailingZeros_decomp b.inner
    rw [hcontent] at hd
    have hinner : b.inner = List.replicate 64 0 := by
      simpa [h.1] using hd
    rw [hinner]
    decide
  · have hd := stripTrailingZeros_decomp b.inner
    rw [hcontent, h.1] at hd
    have hlens := congrArg List.length hd
    simp only [List.length_append, List.length_replicate, List.length_cons, h.1] at hlens
    rw [hd, bytesToStr_content]
    · simp
    · rw [← hcontent]
      exact h.2.2
    · intro x hx
      exact (List.eq_of_mem_replicate hx)
    · simp only [List.length_replicate, List.length_cons]
      omega

/-- C6 (confirmed): for the growable `String` variant, `insert_text_at` with a
finite `char_limit = n` never leaves the buffer with more than `n` characters
when the starting content has at most `n` characters; and with
`char_limit = usize::MAX` it inserts all of the text at the cursor. -/
theorem c6_insert_text_at_char_limit (s t : List Char) (i n : Nat) :
    (n < USIZE_MAX → s.length ≤ n →
      ∃ p, insertTextAt s i t n = some p ∧ p.1.length ≤ n) ∧
    insertTextAt s i t USIZE_MAX = some (s.take i ++ t ++ s.drop i, i + t.length) := by
  constructor
  · intro hn hs
    rw [insertTextAt, if_pos hn]
    simp only [stringInsertText_eq, Option.map_some']
    refine ⟨_, rfl, ?_⟩
    simp only [List.length_append, List.length_take, List.length_drop]
    omega
  · rw [insertTextAt, if_neg (lt_irrefl _)]
    simp only [stringInsertText_eq, Option.map_some']

/-- C3 (corrected, amended form): whenever `String64`'s `insert_text` returns
(does not panic), the returned count is `text.chars().count()` — the full
character count of the argument — even when re-encoding truncated characters
away, so it does NOT always equal the number of characters actually stored
(see `c3_counterexample`). -/
theorem c3_insert_text_returns_arg_count (b : String64) (t : List Char) (i : Nat)
    (p : String64 × Nat) (h : String64.insertText b t i = some p) : p.2 = t.length := by
  rw [String64.insertText] at h
  rcases has : b.asStr with _ | s
  · rw [has] at h; cases h
  · rw [has] at h
    rcases hbs : bytesToStr b.inner with _ | temp
    · rw [hbs] at h; cases h
    · rw [hbs] at h
      simp only [] at h
      rcases Option.map_eq_some'.mp h with ⟨temp2, _, hp⟩
      rw [← hp]

/-- C7 (corrected, amended form): `decrease_indentation` removes exactly one
character when the line starts with a tab; when every character of the (at most
4-character) window at the line start is a space — including windows shorter
than 4 because the text ends — it deletes the range `[line_start, line_start+4)`
clamped to the text, removing `min 4 (length - line_start)` characters; otherwise
it changes nothing. On removal the cursor index decreases by the nominal count
(1 or `TAB_SIZE`), saturating at 0, unless the cursor sat exactly at the line
start, in which case it is unchanged. -/
theorem c7_decrease_indentation_cases (s : List Char) (i : Nat) (hi : i ≤ s.length) :
    (s[findLineStart s i]? = some (Char.ofNat 9) →
      decreaseIndentation s i =
        some (s.take (findLineStart s i) ++ s.drop (findLineStart s i + 1),
          if i ≠ findLineStart s i then i - 1 else i) ∧
      (s.take (findLineStart s i) ++ s.drop (findLineStart s i + 1)).length + 1 = s.length) ∧
    (s[findLineStart s i]? ≠ some (Char.ofNat 9) →
      ((s.drop (findLineStart s i)).take TAB_SIZE).all (fun c => c == ' ') = true →
      decreaseIndentation s i =
        some (s.take (findLineStart s i) ++ s.drop (findLineStart s i + TAB_SIZE),
          if i ≠ findLineStart s i then i - TAB_SIZE else i) ∧
      (s.take (findLineStart s i) ++ s.drop (findLineStart s i + TAB_SIZE)).length
        + min TAB_SIZE (s.length - findLineStart s i) = s.length) ∧
    (s[findLineStart s i]? ≠ some (Char.ofNat 9) →
      ((s.drop (findLineStart s i)).take TAB_SIZE).all (fun c => c == ' ') = false →
      decreaseIndentation s i = some (s, i)) := by
  have hls : findLineStart s i ≤ i := Nat.sub_le _ _
  refine ⟨?_, ?_, ?_⟩
  · intro ht
    have hlt : findLineStart s i < s.length := (List.getElem?_eq_some.mp ht).1
    constructor
    · rw [decreaseIndentation]
      simp only [ht, eq_self_iff_true, if_true]
      rw [stringDeleteCharRange_eq s (findLineStart s i) (findLineStart s i + 1) (by omega),
        Option.map_some']
    · simp only [List.length_append, List.length_take, List.length_drop]
      omega
  · intro ht hsp
    constructor
    · rw [decreaseIndentation]
      simp only [if_neg ht, hsp, if_true]
      rw [stringDeleteCharRange_eq s (findLineStart s i)
        (findLineStart s i + TAB_SIZE) (by omega), Option.map_some']
    · simp only [TAB_SIZE, List.length_append, List.length_take, List.length_drop]
      omega
  · intro ht hsp
    rw [decreaseIndentation]
    simp only [if_neg ht, hsp, Bool.false_eq_true, if_false]

theorem char_toNat_ofNat (n : Nat) (h : n.isValidChar) : (Char.ofNat n).toNat = n := by
  simp only [Char.ofNat, h, dif_pos]
  simp [Char.ofNatAux, Char.toNat, UInt32.toNat]

/-- Soundness of the strict decoder: an accepted byte list is exactly the UTF-8
encoding of the decoded string (strict UTF-8 is canonical: overlong forms,
surrogates and out-of-range values are rejected). -/
theorem utf8DecodeF_sound : ∀ (f : Nat) (l : List Nat) (s : List Char),
    utf8DecodeF f l = some s → utf8Encode s = l := by
  intro f
  induction f with
  | zero =>
    intro l s h
    match l, h with
    | [], h =>
      cases h
      rfl
    | _ :: _, h => cases h
  | succ g ih =>
    intro l s h
    match l with
    | [] =>
      cases h
      rfl
    | b0 :: rest =>
      simp only [utf8DecodeF] at h
      split at h
      · rename_i h1
        rcases Option.map_eq_some'.mp h with ⟨s2, h2, h3⟩
        subst h3
        rw [utf8Encode_cons, ih rest s2 h2]
        have htn := char_toNat_ofNat b0 (Or.inl (by omega))
        simp only [utf8EncodeChar, htn, if_pos h1]
        rfl
      · split at h
        · rename_i h1 h2
          split at h
          · rename_i b1 rest2
            split at h
            · rename_i hcond
              rcases Option.map_eq_some'.mp h with ⟨s2, h3, h4⟩
              subst h4
              rw [utf8Encode_cons, ih rest2 s2 h3]
              have hval : Nat.isValidChar (b0 % 32 * 64 + b1 % 64) := by
                unfold Nat.isValidChar
                omega
              have htn := char_toNat_ofNat _ hval
              simp only [utf8EncodeChar, htn]
              rw [if_neg (by omega), if_pos (by omega)]
              simp only [List.cons_append, List.nil_append, List.cons.injEq]
              exact ⟨by omega, by omega, trivial⟩
            · cases h
          · cases h
        · split at h
          · rename_i h1 h2 h3
            split at h
            · rename_i b1 b2 rest3
              split at h
              · rename_i hcond
                rcases Option.map_eq_some'.mp h with ⟨s2, h4, h5⟩
                subst h5
                rw [utf8Encode_cons, ih rest3 s2 h4]
                have hval : Nat.isValidChar (b0 % 16 * 4096 + b1 % 64 * 64 + b2 % 64) := by
                  unfold Nat.isValidChar
                  omega
                have htn := char_toNat_ofNat _ hval
                simp only [utf8EncodeChar, htn]
                rw [if_neg (by omega), if_neg (by omega), if_pos (by omega)]
                simp only [List.cons_append, List.nil_append, List.cons.injEq]
                exact ⟨by omega, by omega, by omega, trivial⟩
              · cases h
            · cases h
          · split at h
            · rename_i h1 h2 h3 h4
              split at h
              · rename_i b1 b2 b3 rest4
                split at h
                · rename_i hcond
                  rcases Option.map_eq_some'.mp h with ⟨s2, h5, h6⟩
                  subst h6
                  rw [utf8Encode_cons, ih rest4 s2 h5]
                  have hval : Nat.isValidChar
                      (b0 % 8 * 262144 + b1 % 64 * 4096 + b2 % 64 * 64 + b3 % 64) := by
                    unfold Nat.isValidChar
                    omega
                  have htn := char_toNat_ofNat _ hval
                  simp only [utf8EncodeChar, htn]
                  rw [if_neg (by omega), if_neg (by omega), if_neg (by omega)]
                  simp only [List.cons_append, List.nil_append, List.cons.injEq]
                  exact ⟨by omega, by omega, by omega, by omega, trivial⟩
                · cases h
              · cases h
            · cases h

theorem utf8Decode_sound (l : List Nat) (s : List Char) (h : utf8Decode l = some s) :
    utf8Encode s = l :=
  utf8DecodeF_sound l.length l s h

/-- Re-encoding the decoded content of an invariant-satisfying `String64`
reconstructs the buffer exactly. -/
theorem string64_wf_fromStr_asStr (b : String64) (hwf : b.Wf) (s : List Char)
    (hs : b.asStr = some s) : String64.fromStr s = b := by
  have hdec : utf8Decode (stripTrailingZeros b.inner) = some s := by
    rw [← string64_wf_asStr b hwf]
    exact hs
  have henc : utf8Encode s = stripTrailingZeros b.inner := utf8Decode_sound _ _ hdec
  have hd := stripTrailingZeros_decomp b.inner
  rw [hwf.1] at hd
  have hlen : (stripTrailingZeros b.inner).length ≤ 64 := by
    have h64 := congrArg List.length hd
    simp only [List.length_append, List.length_replicate] at h64
    rw [hwf.1] at h64
    omega
  have hmin : Nat.min (utf8Encode s).length 64 = (utf8Encode s).length := by
    rw [henc]
    exact Nat.min_eq_left hlen
  have hinner : String64.fromStr s = String64.mk b.inner := by
    simp only [String64.fromStr, hmin, List.take_length]
    simp only [henc]
    exact congrArg String64.mk hd.symm
  exact hinner.trans rfl

/-- On an invariant-satisfying `String64`, deleting an ordered character range
that lies fully beyond the content is a silent no-op: both decodings succeed and
agree, the byte range drains nothing, and re-encoding reproduces the buffer. -/
theorem string64_delete_beyond (bf : String64) (s : List Char) (a c : Nat)
    (hwf : bf.Wf) (hs : bf.asStr = some s) (hac : a ≤ c) (ha : s.length ≤ a) :
    String64.deleteCharRange bf a c = some bf := by
  have hdisp : bytesToStr bf.inner = some s := by
    rw [string64_wf_display bf hwf, hs]
  rw [String64.deleteCharRange, if_pos hac]
  simp only [hs, hdisp, drainBytes, charPosOfBytePos_byteIndex]
  rw [if_pos (byteIndex_mono s a c hac)]
  simp only [take_min_length, drop_min_length, Option.map_some']
  rw [List.take_of_length_le ha, List.drop_eq_nil_of_le (le_trans ha hac), List.append_nil,
    string64_wf_fromStr_asStr bf hwf s hs]

/-- C1 counterexample: the claim fails as stated. The single-character string
consisting of one NUL character is valid UTF-8 of 1 byte ≤ 64, yet
`String64::from` stores it as an all-zero buffer and `as_str()` returns the
empty string, not the original string. -/
theorem c1_counterexample :
    (utf8Encode [Char.ofNat 0]).length ≤ 64 ∧
    (String64.fromStr [Char.ofNat 0]).asStr ≠ some [Char.ofNat 0] := by
  decide

/-- C1 witness: the amended round-trip at the concrete input "hi". -/
theorem c1_string64_from_roundtrip_no_nul_witness :
    (utf8Encode ['h', 'i']).length ≤ 64 ∧
    (String64.fromStr ['h', 'i']).asStr = some ['h', 'i'] :=
  ⟨by decide, c1_string64_from_roundtrip_no_nul ['h', 'i'] (by decide) (by decide)⟩

/-- C2 (code bug): the capacity precondition holds (`len() + s.len() = 5 ≤ 64`),
yet `String64::new().push("hello")` panics instead of appending: the `end_index`
scan sets `end_index` to (index of the last zero byte) + 1, which is 64 for any
buffer with trailing zeros, so the very first write indexes `inner[64]`, out of
bounds. The spec scenario `push("hello"); push(" world")` can never get past the
first call. -/
theorem c2_push_hello_panics :
    String64.new.len + (utf8Encode ['h', 'e', 'l', 'l', 'o']).length ≤ 64 ∧
    String64.push String64.new ['h', 'e', 'l', 'l', 'o'] = none := by
  decide

/-- C3 counterexample: on a full buffer (64 bytes of `a`), inserting `"b"` at the
end returns 1, although the re-encoding truncates the result back to the original
64 bytes and zero characters of the argument end up stored. -/
theorem c3_counterexample :
    String64.insertText (String64.fromStr (List.replicate 64 'a')) ['b'] 64
      = some (String64.fromStr (List.replicate 64 'a'), 1) ∧
    (String64.fromStr (List.replicate 64 'a')).asStr = some (List.replicate 64 'a') := by
  decide

/-- C3 witness: the amended return-value law at a concrete input. -/
theorem c3_insert_text_returns_arg_count_witness :
    String64.insertText (String64.fromStr []) ['a'] 0 = some (String64.fromStr ['a'], 1) ∧
    (String64.fromStr ['a'], 1).2 = (['a'] : List Char).length :=
  ⟨by decide, c3_insert_text_returns_arg_count (String64.fromStr []) ['a'] 0
    (String64.fromStr ['a'], 1) (by decide)⟩

/-- C4 (code bug): 63 `a`s followed by `€` is 66 > 64 bytes; `String64::from`
copies the 64-byte prefix, whose last byte is the dangling lead byte 0xE2 of `€`.
The validation loop only shrinks a local counter and never clears that byte, so
`len()` counts it and `as_str()` panics on invalid UTF-8 — the stored content
DOES end with a partial code point, contradicting the claim. (`from` itself
indeed never panics: `String64.fromStr` is total.) -/
theorem c4_from_truncation_as_str_panics :
    64 < (utf8Encode (List.replicate 63 'a' ++ ['€'])).length ∧
    (String64.fromStr (List.replicate 63 'a' ++ ['€'])).asStr = none := by
  decide

/-- C5 (code bug): the value `String64::from("a"*63 ++ "€")` is reachable through
`from(&str)` yet violates the invariant: its bytes stripped of trailing zeros are
`61 … 61 E2`, which is not valid UTF-8. -/
theorem c5_from_reachable_invariant_violation :
    ¬ (String64.fromStr (List.replicate 63 'a' ++ ['€'])).Wf := by
  decide

/-- C6 witness: inserting "bc" into "a" at cursor 1 with limit 2 keeps the buffer
at 2 characters. -/
theorem c6_insert_text_at_char_limit_witness :
    ∃ p, insertTextAt ['a'] 1 ['b', 'c'] 2 = some p ∧ p.1.length ≤ 2 :=
  (c6_insert_text_at_char_limit ['a'] ['b', 'c'] 1 2).1 (by decide) (by decide)

/-- C7 counterexample: a line of just three spaces starts with neither a tab nor
four spaces, so the claim says `decrease_indentation` changes nothing; the code
instead takes the all-spaces branch (the window of at most 4 characters is all
spaces), deletes all three characters, and saturates the cursor from 1 to 0. -/
theorem c7_counterexample :
    decreaseIndentation [' ', ' ', ' '] 1 = some ([], 0) ∧
    decreaseIndentation [' ', ' ', ' '] 1 ≠ some ([' ', ' ', ' '], 1) := by
  decide

/-- C7 witness: the tab case at the concrete input "\t x" with cursor 1. -/
theorem c7_decrease_indentation_cases_witness :
    decreaseIndentation [Char.ofNat 9, 'x'] 1 = some (['x'], 0) :=
  (((c7_decrease_indentation_cases [Char.ofNat 9, 'x'] 1 (by decide)).1
    (by decide)).1).trans (by decide)

/-- C8 (corrected, amended form): for the mutable `String` and `String64`
implementations, a reversed range (`start > end`) fails the `assert!` and
panics; but a range fully beyond the buffer's length with `start <= end` passes
the only assertion present and does NOT fail it: for `String` it is silently
clamped to a no-op, and for `String64` on every buffer satisfying the data-model
invariant it is likewise silently clamped to a no-op (on corrupt
invariant-violating buffers `delete_char_range` can still panic, but inside
`as_str()`'s unwrap, never in the assertion). See `c8_counterexample`. -/
theorem c8_delete_char_range_assertion :
    (∀ (s : List Char) (a b : Nat), b < a → stringDeleteCharRange s a b = none) ∧
    (∀ (bf : String64) (a b : Nat), b < a → String64.deleteCharRange bf a b = none) ∧
    (∀ (s : List Char) (a b : Nat), a ≤ b → s.length ≤ a →
      stringDeleteCharRange s a b = some s) ∧
    (∀ (bf : String64) (s : List Char) (a b : Nat), bf.Wf → bf.asStr = some s →
      a ≤ b → s.length ≤ a → String64.deleteCharRange bf a b = some bf) := by
  refine ⟨?_, ?_, ?_, ?_⟩
  · intro s a b h
    rw [stringDeleteCharRange, if_neg (by omega)]
  · intro bf a b h
    rw [String64.deleteCharRange, if_neg (by omega)]
  · intro s a b hab hlen
    rw [stringDeleteCharRange_eq s a b hab, List.take_of_length_le hlen,
      List.drop_eq_nil_of_le (by omega), List.append_nil]
  · intro bf s a b hwf hs hab hlen
    exact string64_delete_beyond bf s a b hwf hs hab hlen

/-- C8 counterexample: deleting the range 5..6 from the two-character buffers
(a range fully beyond the length, with `start <= end`) does not panic for either
implementation — it silently leaves the buffer unchanged. -/
theorem c8_counterexample :
    stringDeleteCharRange ['a', 'b'] 5 6 = some ['a', 'b'] ∧
    String64.deleteCharRange (String64.fromStr ['a', 'b']) 5 6
      = some (String64.fromStr ['a', 'b']) := by
  decide

/-- C8 witness: the reversed range 1..0 on the buffer "a" fails the assertion,
and the beyond-length ordered range 5..6 on the `String64` holding "ab" (which
satisfies the invariant) is a silent no-op. -/
theorem c8_delete_char_range_assertion_witness :
    stringDeleteCharRange ['a'] 1 0 = none ∧
    String64.deleteCharRange (String64.fromStr ['a', 'b']) 5 6
      = some (String64.fromStr ['a', 'b']) :=
  ⟨c8_delete_char_range_assertion.1 ['a'] 1 0 (by decide),
   c8_delete_char_range_assertion.2.2.2 (String64.fromStr ['a', 'b']) ['a', 'b'] 5 6
     (by decide) (by decide) (by decide) (by decide)⟩

/-- C9 (confirmed): the immutable `&str` view reports `is_mutable() = false`,
`insert_text` returns 0 and leaves the contents unchanged for every text and
index, and `delete_char_range` leaves the contents unchanged for every range. -/
theorem c9_str_view_immutable_noop (s t : List Char) (i a b : Nat) :
    strIsMutable = false ∧ strInsertText s t i = (s, 0) ∧ strDeleteCharRange s a b = s :=
  ⟨rfl, rfl, rfl⟩

/-- C10 (confirmed): for every `String64` satisfying the UTF-8 / no-embedded-NUL
invariant, the `Display` path (`bytes_to_str` over the full 64-byte array) and
`as_str()` (decoding the first `len()` bytes) produce exactly the same string. -/
theorem c10_display_eq_as_str (b : String64) (h : b.Wf) : bytesToStr b.inner = b.asStr :=
  string64_wf_display b h

/-- C10 witness: the two decodings agree on the concrete buffer built from "hi". -/
theorem c10_display_eq_as_str_witness :
    bytesToStr (String64.fromStr ['h', 'i']).inner = (String64.fromStr ['h', 'i']).asStr :=
  c10_display_eq_as_str (String64.fromStr ['h', 'i']) (by decide)
